import Mathlib

/-!
Verification of the eisy circuit-model engine: the textual circuit grammar
parser (core/parsing.py), the element impedance library (core/elements.py),
the parameter flatten/reconstruct codec inside CircuitNode.fit, and the
model selector (core/fitting.py), together with proofs of the documented
properties.
-/

set_option maxHeartbeats 1000000

namespace Eisy

/-- A parameter value in the params mapping: a single scalar, or a
fixed-size tuple of numbers (Python scalars vs list/tuple/ndarray values). -/
inductive PVal (α : Type) where
  | scalar (x : α)
  | tup (xs : List α)
  deriving DecidableEq

/-- The seven circuit element kinds defined in elements.py. -/
inductive ElemKind where
  | resistor
  | capacitor
  | inductor
  | warburg
  | warburgShort
  | warburgOpen
  | cpe
  deriving DecidableEq

/-- One-letter tag of each element kind (the str prefixes in elements.py). -/
def ElemKind.tag : ElemKind → Char
  | .resistor => 'R'
  | .capacitor => 'C'
  | .inductor => 'L'
  | .warburg => 'W'
  | .warburgShort => 'S'
  | .warburgOpen => 'O'
  | .cpe => 'Q'

/-- A circuit element: a kind plus an identifier (CircuitElement with name). -/
structure Elem where
  kind : ElemKind
  name : String
  deriving DecidableEq

/-- Parameter-lookup key of an element: its tag followed by its name,
as produced by the str methods in elements.py. -/
def Elem.key (e : Elem) : String := String.mk (e.kind.tag :: e.name.data)

/-- The circuit tree: ElementNode, SeriesNode and ParallelNode of parsing.py. -/
inductive CNode where
  | element (e : Elem)
  | series (children : List CNode)
  | parallel (children : List CNode)

/-! ## The circuit grammar parser (parse_circuit and helpers) -/

/-- Python str.strip: drop whitespace from both ends. -/
def stripChars (s : List Char) : List Char :=
  ((s.dropWhile Char.isWhitespace).reverse.dropWhile Char.isWhitespace).reverse

/-- The loop of the operator split: scan characters tracking parenthesis
depth, flushing the current chunk (stripped) at each depth-0 occurrence of
the operator; the final chunk is appended only when nonempty. -/
def splitGo (op : Char) : Int → List Char → List Char → List (List Char)
  | _, current, [] => if current = [] then [] else [stripChars current]
  | depth, current, c :: rest =>
    if c = '(' then splitGo op (depth + 1) (current ++ [c]) rest
    else if c = ')' then splitGo op (depth - 1) (current ++ [c]) rest
    else if c = op ∧ depth = 0 then stripChars current :: splitGo op depth [] rest
    else splitGo op depth (current ++ [c]) rest

/-- The helper that splits a circuit string by an operator character,
respecting parentheses. -/
def splitByOperator (s : List Char) (op : Char) : List (List Char) :=
  splitGo op 0 [] s

/-- The element-token step of the parser: strip, read the tag as the first
character and the identifier as the remainder. Indexing into the empty
token raises the Python string IndexError; a tag other than R, C, L, W, Q
raises a ValueError. Both are modelled as error results. -/
def createElementNode (s : List Char) : Except String Elem :=
  match stripChars s with
  | [] => .error "string index out of range"
  | c :: rest =>
    if c = 'R' then .ok ⟨.resistor, String.mk rest⟩
    else if c = 'C' then .ok ⟨.capacitor, String.mk rest⟩
    else if c = 'L' then .ok ⟨.inductor, String.mk rest⟩
    else if c = 'W' then .ok ⟨.warburg, String.mk rest⟩
    else if c = 'Q' then .ok ⟨.cpe, String.mk rest⟩
    else .error ("Unknown element type: " ++ String.mk [c])

/-- The scan at the head of the parenthesis-aware parsing step: whether a
top-level (depth-0) pipe and a top-level dash occur. The source records
their first positions, but only ever compares them with -1, so they are
flags. -/
def topLevelOps : Int → List Char → Bool × Bool
  | _, [] => (false, false)
  | depth, c :: rest =>
    if c = '(' then topLevelOps (depth + 1) rest
    else if c = ')' then topLevelOps (depth - 1) rest
    else if depth = 0 then
      let r := topLevelOps depth rest
      if c = '|' then (true, r.2)
      else if c = '-' then (r.1, true)
      else r
    else topLevelOps depth rest

/-- The parenthesis-aware parsing step, with the recursive parse supplied
as a callback: a top-level dash splits into a series node, else a
top-level pipe splits into a parallel node, else matching outer
parentheses are stripped, else the string is a single element token. -/
def parseWithParentheses (parse : List Char → Except String CNode)
    (s : List Char) : Except String CNode :=
  let flags := topLevelOps 0 s
  if flags.2 then do
    let children ← (splitByOperator s '-').mapM parse
    pure (.series children)
  else if flags.1 then do
    let children ← (splitByOperator s '|').mapM parse
    pure (.parallel children)
  else if s.head? = some '(' ∧ s.getLast? = some ')' then
    parse ((s.drop 1).dropLast)
  else
    (createElementNode s).map .element

/-- The recursion of parse_circuit, with explicit fuel: each recursive
call in the source is on a strict substring, so fuel equal to the length
of the input plus one is never exhausted. After stripping, a string with
a parenthesis goes to the parenthesis-aware step; otherwise a string with
a dash splits into a series node, then a string with a pipe splits into a
parallel node, and a bare token becomes an element node. -/
def parseGo : Nat → List Char → Except String CNode
  | 0, _ => .error "recursion fuel exhausted"
  | fuel + 1, s0 =>
    let s := stripChars s0
    if s.contains '(' then parseWithParentheses (parseGo fuel) s
    else if s.contains '-' then do
      let children ← (splitByOperator s '-').mapM (parseGo fuel)
      pure (.series children)
    else if s.contains '|' then do
      let children ← (splitByOperator s '|').mapM (parseGo fuel)
      pure (.parallel children)
    else (createElementNode s).map .element

/-- parse_circuit: parse a circuit string into a circuit tree. -/
def parseCircuit (s : String) : Except String CNode :=
  parseGo (s.length + 1) s.data

/-! ## The parameter codec inside CircuitNode.fit

The fit method first flattens the params dict into a flat initial-guess
vector p0 with bound vectors, iterating the keys in sorted order and
recording a structure map of (key, arity) pairs; after optimisation it
rebuilds the nested values from the flat vector. The params dict is
represented as an association list in iteration order; the call to
sorted(params.keys()) is modelled by an insertion sort on the keys. -/

/-- Lexicographic strict comparison of character lists by code point,
as Python compares strings. -/
def lexLt : List Char → List Char → Bool
  | _, [] => false
  | [], _ :: _ => true
  | a :: as, b :: bs =>
    if a.toNat < b.toNat then true
    else if b.toNat < a.toNat then false
    else lexLt as bs

/-- Strict lexicographic order on keys. -/
def keyLt (a b : String) : Bool := lexLt a.data b.data

/-- Lexicographic order on keys (the comparison Python sorted uses). -/
def keyLe (a b : String) : Bool := !(keyLt b a)

lemma lexLt_asymm : ∀ x y : List Char, lexLt x y = true → lexLt y x = false
  | _, [], h => by simp [lexLt] at h
  | [], _ :: _, _ => rfl
  | a :: as, b :: bs, h => by
    by_cases hab : a.toNat < b.toNat
    · have hba : ¬b.toNat < a.toNat := Nat.lt_asymm hab
      simp [lexLt, hba, hab]
    · by_cases hba : b.toNat < a.toNat
      · simp [lexLt, hab, hba] at h
      · simp only [lexLt, if_neg hab, if_neg hba] at h
        simp only [lexLt, if_neg hba, if_neg hab]
        exact lexLt_asymm as bs h

lemma lexLt_connex : ∀ x y : List Char,
    lexLt x y = false → lexLt y x = false → x = y
  | [], [], _, _ => rfl
  | [], _ :: _, h, _ => by simp [lexLt] at h
  | _ :: _, [], _, h => by simp [lexLt] at h
  | a :: as, b :: bs, h1, h2 => by
    by_cases hab : a.toNat < b.toNat
    · simp [lexLt, hab] at h1
    · by_cases hba : b.toNat < a.toNat
      · simp [lexLt, hba] at h2
      · have hc : a = b :=
          Char.eq_of_val_eq (UInt32.toNat.inj
            (Nat.le_antisymm (Nat.le_of_not_lt hba) (Nat.le_of_not_lt hab)))
        simp only [lexLt, if_neg hab, if_neg hba] at h1
        simp only [lexLt, if_neg hba, if_neg hab] at h2
        rw [hc, lexLt_connex as bs h1 h2]

lemma lexLt_trans : ∀ x y z : List Char,
    lexLt x y = true → lexLt y z = true → lexLt x z = true
  | _, [], _, h, _ => by simp [lexLt] at h
  | _, _, [], _, h => by simp [lexLt] at h
  | [], _ :: _, _ :: _, _, _ => rfl
  | a :: as, b :: bs, c :: cs, h1, h2 => by
    have hbc : b.toNat ≤ c.toNat := by
      by_contra hcb
      simp [lexLt, Nat.lt_of_not_le hcb, Nat.lt_asymm (Nat.lt_of_not_le hcb)] at h2
    by_cases hab : a.toNat < b.toNat
    · have hac : a.toNat < c.toNat := Nat.lt_of_lt_of_le hab hbc
      simp [lexLt, hac]
    · by_cases hba : b.toNat < a.toNat
      · simp [lexLt, hab, hba] at h1
      · have heq : a.toNat = b.toNat :=
          Nat.le_antisymm (Nat.le_of_not_lt hba) (Nat.le_of_not_lt hab)
        simp only [lexLt, if_neg hab, if_neg hba] at h1
        by_cases hbc2 : b.toNat < c.toNat
        · have hac : a.toNat < c.toNat := heq ▸ hbc2
          simp [lexLt, hac]
        · have hcb : ¬c.toNat < b.toNat := Nat.not_lt.2 hbc
          simp only [lexLt, if_neg hbc2, if_neg hcb] at h2
          have hac : ¬a.toNat < c.toNat := heq ▸ hbc2
          have hca : ¬c.toNat < a.toNat := heq ▸ hcb
          simp only [lexLt, if_neg hac, if_neg hca]
          exact lexLt_trans as bs cs h1 h2

lemma keyLt_keyLe (a b : String) (h : keyLt a b = true) : keyLe a b = true := by
  unfold keyLe keyLt at *
  rw [lexLt_asymm _ _ h]
  rfl

lemma keyLe_total (a b : String) (h : keyLe a b = false) : keyLe b a = true := by
  unfold keyLe keyLt at *
  have h2 : lexLt b.data a.data = true := by simpa using h
  rw [lexLt_asymm _ _ h2]
  rfl

lemma keyLe_trans (a b c : String) (h1 : keyLe a b = true)
    (h2 : keyLe b c = true) : keyLe a c = true := by
  unfold keyLe keyLt at *
  have h1x : lexLt b.data a.data = false := by simpa using h1
  have h2x : lexLt c.data b.data = false := by simpa using h2
  have hres : lexLt c.data a.data = false := by
    by_contra hca
    rw [Bool.not_eq_false] at hca
    by_cases hab : lexLt a.data b.data = true
    · rw [lexLt_trans c.data a.data b.data hca hab] at h2x
      exact Bool.noConfusion h2x
    · have hab2 : lexLt a.data b.data = false := by simpa using hab
      have heq : a.data = b.data := lexLt_connex a.data b.data hab2 h1x
      rw [heq] at hca
      rw [hca] at h2x
      exact Bool.noConfusion h2x
  simp [hres]

/-- Insert one entry into a key-ordered association list. -/
def insortEntry (e : String × PVal ℚ) :
    List (String × PVal ℚ) → List (String × PVal ℚ)
  | [] => [e]
  | f :: rest => if keyLe e.1 f.1 then e :: f :: rest else f :: insortEntry e rest

/-- The params dict viewed through keys = sorted(params.keys()):
its entries in ascending key order. -/
def sortEntries : List (String × PVal ℚ) → List (String × PVal ℚ)
  | [] => []
  | e :: rest => insortEntry e (sortEntries rest)

/-- key.startswith with the CPE tag character Q. -/
def keyIsCPE (k : String) : Bool :=
  match k.data with
  | [] => false
  | c :: _ => c = 'Q'

/-- The four vectors built by the flattening loop of fit: flat initial
guess p0, lower and upper bound vectors, and the structure map of
(key, arity) pairs. An upper bound of none stands for np.inf. -/
structure PrepResult where
  p0 : List ℚ
  lower : List ℚ
  upper : List (Option ℚ)
  structMap : List (String × Nat)
  deriving DecidableEq

/-- The flattening loop of fit over the entries in iteration order: a
scalar value contributes one slot with bounds eps and infinity; a tuple
value contributes its elements, with bounds eps, eps and infinity, 1.0
when the key starts with Q, and eps, infinity on every slot otherwise. -/
def fitPrepCore (eps : ℚ) : List (String × PVal ℚ) → PrepResult
  | [] => ⟨[], [], [], []⟩
  | (k, v) :: rest =>
    let r := fitPrepCore eps rest
    match v with
    | .scalar x => ⟨x :: r.p0, eps :: r.lower, none :: r.upper, (k, 1) :: r.structMap⟩
    | .tup xs =>
      if keyIsCPE k then
        ⟨xs ++ r.p0, eps :: eps :: r.lower, none :: some 1 :: r.upper,
          (k, xs.length) :: r.structMap⟩
      else
        ⟨xs ++ r.p0, List.replicate xs.length eps ++ r.lower,
          List.replicate xs.length none ++ r.upper, (k, xs.length) :: r.structMap⟩

/-- The flattening phase of fit: sort the keys, then run the loop. -/
def fitPrep (eps : ℚ) (params : List (String × PVal ℚ)) : PrepResult :=
  fitPrepCore eps (sortEntries params)

/-- The reconstruction loop shared by model_wrapper and the final update
of fit: walk the structure map consuming the flat vector, producing a
scalar for arity 1 and a tuple of the next n slots for arity n. -/
def fitReconstruct : List (String × Nat) → List ℚ → List (String × PVal ℚ)
  | [], _ => []
  | (k, n) :: rest, popt =>
    if n = 1 then (k, .scalar popt.headI) :: fitReconstruct rest popt.tail
    else (k, .tup (popt.take n)) :: fitReconstruct rest (popt.drop n)

/-- The final update of fit: params rebuilt from the optimiser output. -/
def fitUpdate (eps : ℚ) (params : List (String × PVal ℚ)) (popt : List ℚ) :
    List (String × PVal ℚ) :=
  fitReconstruct (fitPrep eps params).structMap popt

/-- Shape rule of reconstruction as the spec states it: arity 1 comes back
as a scalar (so a 1-tuple returns as its single number), arity above 1 as
a tuple of the same length with the same numeric values. -/
def reconShape : PVal ℚ → PVal ℚ
  | .scalar x => .scalar x
  | .tup xs => if xs.length = 1 then .scalar xs.headI else .tup xs

/-- True unless the value is a tuple of exactly one element. -/
def notOneTup : PVal ℚ → Bool
  | .scalar _ => true
  | .tup xs => !(xs.length == 1)

/-- Same value shape: scalar with scalar, tuple with equal-length tuple. -/
def sameShape : PVal ℚ → PVal ℚ → Bool
  | .scalar _, .scalar _ => true
  | .tup xs, .tup ys => xs.length == ys.length
  | _, _ => false

/-- Per-key lower-bound slots as the spec states them: eps for a scalar,
eps on both slots of a CPE pair, eps on every slot of any other tuple. -/
def lowerSpec (eps : ℚ) : String × PVal ℚ → List ℚ := fun kv =>
  match kv.2 with
  | .scalar _ => [eps]
  | .tup xs => if keyIsCPE kv.1 then [eps, eps] else List.replicate xs.length eps

/-- Per-key upper-bound slots as the spec states them: infinity for a
scalar, infinity then 1.0 for a CPE pair, infinity on every slot of any
other tuple (none stands for np.inf). -/
def upperSpec : String × PVal ℚ → List (Option ℚ) := fun kv =>
  match kv.2 with
  | .scalar _ => [none]
  | .tup xs => if keyIsCPE kv.1 then [none, some 1] else List.replicate xs.length none

/-! ### Sorting lemmas -/

lemma mem_insortEntry (e a : String × PVal ℚ) (l : List (String × PVal ℚ)) :
    a ∈ insortEntry e l ↔ a = e ∨ a ∈ l := by
  induction l with
  | nil => simp [insortEntry]
  | cons f rest ih =>
    simp only [insortEntry]
    split
    · simp
    · simp only [List.mem_cons, ih]
      tauto

lemma mem_sortEntries (a : String × PVal ℚ) (l : List (String × PVal ℚ)) :
    a ∈ sortEntries l ↔ a ∈ l := by
  induction l with
  | nil => simp [sortEntries]
  | cons e rest ih => simp [sortEntries, mem_insortEntry, ih]

lemma insortEntry_pairwise (e : String × PVal ℚ) (l : List (String × PVal ℚ))
    (h : l.Pairwise (fun a b => keyLe a.1 b.1 = true)) :
    (insortEntry e l).Pairwise (fun a b => keyLe a.1 b.1 = true) := by
  induction l with
  | nil => simp [insortEntry]
  | cons f rest ih =>
    rw [List.pairwise_cons] at h
    simp only [insortEntry]
    split
    · rename_i hle
      refine List.Pairwise.cons ?_ (List.Pairwise.cons h.1 h.2)
      intro b hb
      rcases List.mem_cons.1 hb with hb | hb
      · exact hb ▸ hle
      · exact keyLe_trans _ _ _ hle (h.1 b hb)
    · rename_i hgt
      refine List.Pairwise.cons ?_ (ih h.2)
      intro b hb
      rcases (mem_insortEntry e b rest).1 hb with hb | hb
      · exact hb ▸ keyLe_total _ _ (by simpa using hgt)
      · exact h.1 b hb

lemma sortEntries_pairwise (l : List (String × PVal ℚ)) :
    (sortEntries l).Pairwise (fun a b => keyLe a.1 b.1 = true) := by
  induction l with
  | nil => simp [sortEntries]
  | cons e rest ih => exact insortEntry_pairwise e _ ih

lemma sortEntries_eq_self (l : List (String × PVal ℚ))
    (h : l.Pairwise (fun a b => keyLt a.1 b.1 = true)) : sortEntries l = l := by
  induction l with
  | nil => rfl
  | cons e rest ih =>
    rw [List.pairwise_cons] at h
    simp only [sortEntries, ih h.2]
    cases rest with
    | nil => rfl
    | cons f rest2 =>
      have : keyLe e.1 f.1 = true := keyLt_keyLe _ _ (h.1 f (by simp))
      simp [insortEntry, this]

/-! ### Codec lemmas -/

/-- Reconstructing from the structure map and flat vector produced by the
flattening loop returns the entries it was fed, up to the arity-1 shape
rule (a 1-tuple returns as a scalar). -/
lemma fitPrepCore_roundtrip (eps : ℚ) (l : List (String × PVal ℚ)) :
    fitReconstruct (fitPrepCore eps l).structMap (fitPrepCore eps l).p0
      = l.map (fun kv => (kv.1, reconShape kv.2)) := by
  induction l with
  | nil => rfl
  | cons kv rest ih =>
    obtain ⟨k, v⟩ := kv
    cases v with
    | scalar x =>
      simp [fitPrepCore, fitReconstruct, reconShape, ih]
    | tup xs =>
      have hsm : (fitPrepCore eps ((k, PVal.tup xs) :: rest)).structMap
          = (k, xs.length) :: (fitPrepCore eps rest).structMap := by
        by_cases hk : keyIsCPE k <;> simp [fitPrepCore, hk]
      have hp0 : (fitPrepCore eps ((k, PVal.tup xs) :: rest)).p0
          = xs ++ (fitPrepCore eps rest).p0 := by
        by_cases hk : keyIsCPE k <;> simp [fitPrepCore, hk]
      rw [hsm, hp0]
      by_cases hx : xs.length = 1
      · obtain ⟨a, rfl⟩ := List.length_eq_one.1 hx
        simp [fitReconstruct, reconShape, ih]
      · simp only [fitReconstruct, if_neg hx, List.take_left, List.drop_left, ih,
          List.map_cons, reconShape, List.cons.injEq, Prod.mk.injEq]

/-- The lower-bound vector built by the loop is the per-key spec slots,
concatenated in iteration order. -/
lemma fitPrepCore_lower (eps : ℚ) (l : List (String × PVal ℚ)) :
    (fitPrepCore eps l).lower = (l.map (lowerSpec eps)).flatten := by
  induction l with
  | nil => rfl
  | cons kv rest ih =>
    obtain ⟨k, v⟩ := kv
    cases v with
    | scalar x => simp [fitPrepCore, lowerSpec, ih]
    | tup xs =>
      by_cases hk : keyIsCPE k <;> simp [fitPrepCore, lowerSpec, hk, ih]

/-- The upper-bound vector built by the loop is the per-key spec slots,
concatenated in iteration order. -/
lemma fitPrepCore_upper (eps : ℚ) (l : List (String × PVal ℚ)) :
    (fitPrepCore eps l).upper = (l.map upperSpec).flatten := by
  induction l with
  | nil => rfl
  | cons kv rest ih =>
    obtain ⟨k, v⟩ := kv
    cases v with
    | scalar x => simp [fitPrepCore, upperSpec, ih]
    | tup xs =>
      by_cases hk : keyIsCPE k <;> simp [fitPrepCore, upperSpec, hk, ih]

/-- Boolean guard for the documented CPE arity: a tuple value under a
Q-tagged key has exactly two entries. -/
def cpeArityOk : String × PVal ℚ → Bool := fun kv =>
  match kv.2 with
  | .scalar _ => true
  | .tup xs => !keyIsCPE kv.1 || xs.length == 2

/-- When Q-tagged tuples are pairs, the bound vectors are aligned with the
flat initial-guess vector slot for slot. -/
lemma fitPrepCore_lengths (eps : ℚ) (l : List (String × PVal ℚ))
    (hQ : ∀ kv ∈ l, cpeArityOk kv = true) :
    (fitPrepCore eps l).lower.length = (fitPrepCore eps l).p0.length
    ∧ (fitPrepCore eps l).upper.length = (fitPrepCore eps l).p0.length := by
  induction l with
  | nil => exact ⟨rfl, rfl⟩
  | cons kv rest ih =>
    obtain ⟨k, v⟩ := kv
    have hrest := ih (fun kv hkv => hQ kv (List.mem_cons_of_mem _ hkv))
    cases v with
    | scalar x => simp [fitPrepCore, hrest.1, hrest.2]
    | tup xs =>
      by_cases hk : keyIsCPE k
      · have h2 : xs.length = 2 := by
          have := hQ (k, PVal.tup xs) (List.mem_cons_self _ _)
          simpa [cpeArityOk, hk] using this
        simp only [fitPrepCore, hk, if_pos, List.length_append, List.length_cons,
          h2, hrest.1, hrest.2]
        omega
      · simp [fitPrepCore, hk, hrest.1, hrest.2]

/-- Reconstruction from any flat vector of the right total length restores
every key with its shape, provided no value is a 1-tuple. -/
lemma fitReconstruct_core_shape (eps : ℚ) (l : List (String × PVal ℚ)) :
    ∀ popt : List ℚ, (∀ kv ∈ l, notOneTup kv.2 = true) →
      popt.length = (fitPrepCore eps l).p0.length →
      (fitReconstruct (fitPrepCore eps l).structMap popt).map Prod.fst
          = l.map Prod.fst
      ∧ List.Forall₂ (fun a b : String × PVal ℚ => sameShape a.2 b.2 = true) l
          (fitReconstruct (fitPrepCore eps l).structMap popt) := by
  induction l with
  | nil => intro popt _ _; exact ⟨rfl, List.Forall₂.nil⟩
  | cons kv rest ih =>
    intro popt h1 hlen
    obtain ⟨k, v⟩ := kv
    have h1rest : ∀ kv ∈ rest, notOneTup kv.2 = true :=
      fun kv hkv => h1 kv (List.mem_cons_of_mem _ hkv)
    cases v with
    | scalar x =>
      have hlen2 : popt.tail.length = (fitPrepCore eps rest).p0.length := by
        simp [fitPrepCore] at hlen
        cases popt with
        | nil => simp at hlen
        | cons q qs => simpa using hlen
      have hrest := ih popt.tail h1rest hlen2
      refine ⟨?_, ?_⟩
      · simp [fitPrepCore, fitReconstruct, hrest.1]
      · simp only [fitPrepCore, fitReconstruct, if_pos rfl]
        exact List.Forall₂.cons (by simp [sameShape]) hrest.2
    | tup xs =>
      have hx : xs.length ≠ 1 := by
        have := h1 (k, PVal.tup xs) (List.mem_cons_self _ _)
        simpa [notOneTup] using this
      have hsm : (fitPrepCore eps ((k, PVal.tup xs) :: rest)).structMap
          = (k, xs.length) :: (fitPrepCore eps rest).structMap := by
        by_cases hk : keyIsCPE k <;> simp [fitPrepCore, hk]
      have hp0 : (fitPrepCore eps ((k, PVal.tup xs) :: rest)).p0.length
          = xs.length + (fitPrepCore eps rest).p0.length := by
        by_cases hk : keyIsCPE k <;> simp [fitPrepCore, hk]
      rw [hp0] at hlen
      have hlen2 : (popt.drop xs.length).length
          = (fitPrepCore eps rest).p0.length := by
        simp [List.length_drop, hlen]
      have hrest := ih (popt.drop xs.length) h1rest hlen2
      have htake : (popt.take xs.length).length = xs.length := by
        rw [List.length_take]
        omega
      refine ⟨?_, ?_⟩
      · rw [hsm]
        simp only [fitReconstruct, if_neg hx, List.map_cons, hrest.1]
      · rw [hsm]
        simp only [fitReconstruct, if_neg hx]
        exact List.Forall₂.cons (by simp [sameShape, htake]) hrest.2

/-! ## The model selector (best_model in fitting.py)

The per-candidate work (parse_circuit plus fit) is abstracted by an
evaluation oracle ev: an ok result carries the fitted params and the
r-squared score, an error result carries the exception message. The
selector itself is the loop of best_model: try each candidate, record
failures, keep the candidate whose score strictly beats the best so far,
and warn with the aggregated failures when no candidate succeeded. -/

/-- One candidate: circuit text with its initial parameter mapping. -/
abbrev Candidate := String × List (String × PVal ℚ)

/-- The oracle for parse_circuit followed by fit on one candidate. -/
abbrev FitOracle := String → List (String × PVal ℚ) →
  Except String (List (String × PVal ℚ) × ℚ)

/-- The loop state of best_model: best_r_squared (none stands for the
initial -inf), best_model as a (text, score) pair, best_params, and the
recorded failures. -/
structure SelState where
  bestR : Option ℚ
  best : Option (String × ℚ)
  bestParams : Option (List (String × PVal ℚ))
  failed : List (String × String)
  deriving DecidableEq

/-- r_squared > best_r_squared, where none stands for -inf. -/
def beats (r : ℚ) : Option ℚ → Bool
  | none => true
  | some b => b < r

/-- The candidate loop of best_model. -/
def bestModelGo (ev : FitOracle) : SelState → List Candidate → SelState
  | st, [] => st
  | st, (m, p) :: rest =>
    match ev m p with
    | .ok (fp, r) =>
      if beats r st.bestR then
        bestModelGo ev ⟨some r, some (m, r), some fp, st.failed⟩ rest
      else
        bestModelGo ev st rest
    | .error e =>
      bestModelGo ev ⟨st.bestR, st.best, st.bestParams, st.failed ++ [(m, e)]⟩ rest

/-- The outcome of best_model: the returned (best_model, best_params)
pair, the recorded failures, and the all-models-failed warning, which is
raised exactly when best_model is none and carries the failure list. -/
structure SelectResult where
  winner : Option (String × ℚ)
  params : Option (List (String × PVal ℚ))
  failed : List (String × String)
  allFailedWarning : Option (List (String × String))
  deriving DecidableEq

/-- best_model: run the loop from the initial state, then warn when no
candidate succeeded. -/
def bestModel (ev : FitOracle) (models : List Candidate) : SelectResult :=
  let st := bestModelGo ev ⟨none, none, none, []⟩ models
  ⟨st.best, st.bestParams, st.failed,
    if st.best = none then some st.failed else none⟩

/-- The successful candidates, in order: (text, score, fitted params). -/
def successesOf (ev : FitOracle) (models : List Candidate) :
    List (String × ℚ × List (String × PVal ℚ)) :=
  models.filterMap (fun c =>
    match ev c.1 c.2 with
    | .ok (fp, r) => some (c.1, r, fp)
    | .error _ => none)

/-- The failing candidates, in order: (text, error message). -/
def failuresOf (ev : FitOracle) (models : List Candidate) :
    List (String × String) :=
  models.filterMap (fun c =>
    match ev c.1 c.2 with
    | .ok _ => none
    | .error e => some (c.1, e))

/-- First-seen maximum by score: a later candidate replaces the current
winner only when its score is strictly greater, so ties keep the
first-seen candidate. -/
def firstMax : List (String × ℚ × List (String × PVal ℚ)) →
    Option (String × ℚ × List (String × PVal ℚ))
  | [] => none
  | c :: rest =>
    match firstMax rest with
    | none => some c
    | some d => if c.2.1 < d.2.1 then some d else some c

/-- r_squared strictly beats some bound iff the bound is below it. -/
lemma beats_some_iff (r b : ℚ) : beats r (some b) = true ↔ b < r := by
  simp [beats]

lemma firstMax_eq_none_iff (l : List (String × ℚ × List (String × PVal ℚ))) :
    firstMax l = none ↔ l = [] := by
  cases l with
  | nil => simp [firstMax]
  | cons a rest =>
    cases h : firstMax rest with
    | none => simp [firstMax, h]
    | some d => simp only [firstMax, h]; split <;> simp

lemma firstMax_le (l : List (String × ℚ × List (String × PVal ℚ)))
    (c : String × ℚ × List (String × PVal ℚ)) (h : firstMax l = some c) :
    ∀ d ∈ l, d.2.1 ≤ c.2.1 := by
  induction l generalizing c with
  | nil => simp [firstMax] at h
  | cons a rest ih =>
    intro d hd
    cases hr : firstMax rest with
    | none =>
      rw [firstMax, hr] at h
      obtain rfl : a = c := by simpa using h
      have : rest = [] := (firstMax_eq_none_iff rest).1 hr
      rcases List.mem_cons.1 hd with rfl | hmem
      · exact le_refl _
      · rw [this] at hmem; exact absurd hmem (List.not_mem_nil d)
    | some d0 =>
      simp only [firstMax, hr] at h
      by_cases ha : a.2.1 < d0.2.1
      · rw [if_pos ha] at h
        have hc : d0 = c := by simpa using h
        subst hc
        rcases List.mem_cons.1 hd with rfl | hmem
        · exact le_of_lt ha
        · exact ih d0 hr d hmem
      · rw [if_neg ha] at h
        have hc : a = c := by simpa using h
        subst hc
        rcases List.mem_cons.1 hd with rfl | hmem
        · exact le_refl _
        · exact le_trans (ih d0 hr d hmem) (le_of_not_lt ha)

lemma firstMax_first_seen (l : List (String × ℚ × List (String × PVal ℚ)))
    (c : String × ℚ × List (String × PVal ℚ)) (h : firstMax l = some c) :
    ∃ l1 l2, l = l1 ++ c :: l2 ∧ ∀ d ∈ l1, d.2.1 < c.2.1 := by
  induction l generalizing c with
  | nil => simp [firstMax] at h
  | cons a rest ih =>
    cases hr : firstMax rest with
    | none =>
      rw [firstMax, hr] at h
      obtain rfl : a = c := by simpa using h
      exact ⟨[], rest, rfl, by simp⟩
    | some d0 =>
      simp only [firstMax, hr] at h
      by_cases ha : a.2.1 < d0.2.1
      · rw [if_pos ha] at h
        have hc : d0 = c := by simpa using h
        subst hc
        obtain ⟨l1, l2, hl, hlt⟩ := ih d0 hr
        refine ⟨a :: l1, l2, by rw [hl]; rfl, ?_⟩
        intro d hd
        rcases List.mem_cons.1 hd with rfl | hmem
        · exact ha
        · exact hlt d hmem
      · rw [if_neg ha] at h
        have hc : a = c := by simpa using h
        subst hc
        exact ⟨[], rest, rfl, by simp⟩

/-- What the candidate loop does to the state, in terms of the first-seen
maximum of the successes of the remaining candidates: the failures are
appended in order, and the best fields are replaced exactly when that
maximum strictly beats the incoming best score. -/
lemma bestModelGo_spec (ev : FitOracle) (ms : List Candidate) :
    ∀ st : SelState,
      bestModelGo ev st ms
        = (match firstMax (successesOf ev ms) with
           | none => ⟨st.bestR, st.best, st.bestParams,
               st.failed ++ failuresOf ev ms⟩
           | some c =>
             if beats c.2.1 st.bestR then
               ⟨some c.2.1, some (c.1, c.2.1), some c.2.2,
                 st.failed ++ failuresOf ev ms⟩
             else
               ⟨st.bestR, st.best, st.bestParams,
                 st.failed ++ failuresOf ev ms⟩) := by
  induction ms with
  | nil =>
    intro st
    cases st
    simp [bestModelGo, successesOf, failuresOf, firstMax]
  | cons c0 rest ih =>
    intro st
    obtain ⟨m, p⟩ := c0
    cases hev : ev m p with
    | error e =>
      have hsucc : successesOf ev ((m, p) :: rest) = successesOf ev rest := by
        simp [successesOf, hev]
      have hfail : failuresOf ev ((m, p) :: rest)
          = (m, e) :: failuresOf ev rest := by
        simp [failuresOf, hev]
      have hgo : bestModelGo ev st ((m, p) :: rest)
          = bestModelGo ev
              ⟨st.bestR, st.best, st.bestParams, st.failed ++ [(m, e)]⟩ rest := by
        simp [bestModelGo, hev]
      rw [hgo, ih, hsucc, hfail]
      cases hfm : firstMax (successesOf ev rest) with
      | none => simp
      | some d =>
        by_cases hbd : beats d.2.1 st.bestR = true
        · simp [hbd]
        · simp [hbd]
    | ok res =>
      obtain ⟨fp, r⟩ := res
      have hsucc : successesOf ev ((m, p) :: rest)
          = (m, r, fp) :: successesOf ev rest := by
        simp [successesOf, hev]
      have hfail : failuresOf ev ((m, p) :: rest) = failuresOf ev rest := by
        simp [failuresOf, hev]
      rw [hsucc, hfail]
      by_cases hb : beats r st.bestR = true
      · have hgo : bestModelGo ev st ((m, p) :: rest)
            = bestModelGo ev ⟨some r, some (m, r), some fp, st.failed⟩ rest := by
          simp [bestModelGo, hev, hb]
        rw [hgo, ih]
        cases hfm : firstMax (successesOf ev rest) with
        | none =>
          simp only [firstMax, hfm]
          simp [hb]
        | some d =>
          simp only [firstMax, hfm]
          by_cases hd : r < d.2.1
          · have hdr : beats d.2.1 (some r) = true := (beats_some_iff _ _).2 hd
            have hbd : beats d.2.1 st.bestR = true := by
              cases hbr : st.bestR with
              | none => rfl
              | some b =>
                rw [hbr] at hb
                exact (beats_some_iff _ _).2
                  (lt_trans ((beats_some_iff _ _).1 hb) hd)
            simp [hd, hdr, hbd]
          · have hdr : beats d.2.1 (some r) = false := by
              rw [Bool.eq_false_iff]
              intro hcon
              exact hd ((beats_some_iff _ _).1 hcon)
            simp [hd, hdr, hb]
      · obtain ⟨b, hbrx, hrb⟩ : ∃ b, st.bestR = some b ∧ r ≤ b := by
          cases hbrx : st.bestR with
          | none => rw [hbrx] at hb; simp [beats] at hb
          | some b =>
            rw [hbrx] at hb
            exact ⟨b, rfl, le_of_not_lt (fun hc => hb ((beats_some_iff _ _).2 hc))⟩
        have hgo : bestModelGo ev st ((m, p) :: rest)
            = bestModelGo ev st rest := by
          simp [bestModelGo, hev, hb]
        rw [hgo, ih]
        cases hfm : firstMax (successesOf ev rest) with
        | none =>
          simp only [firstMax, hfm]
          simp [hb]
        | some d =>
          simp only [firstMax, hfm]
          by_cases hd : r < d.2.1
          · simp [hd]
          · have hbd : beats d.2.1 st.bestR = false := by
              rw [hbrx, Bool.eq_false_iff]
              intro hcon
              have hdb : b < d.2.1 := (beats_some_iff _ _).1 hcon
              exact absurd (lt_of_lt_of_le hdb (le_trans (le_of_not_lt hd) hrb))
                (lt_irrefl b)
            simp [hd, hbd, hb]

/-! ## The element library and the tree evaluator

Element impedances are the closed forms of elements.py over exact reals
and complex numbers; np.sqrt of a complex argument is the principal
square root, modelled as the complex power one half, and coth x is
1 / tanh x. A value of the wrong arity for the element is a Python
TypeError, modelled as an error result; the CPE raises a ValueError when
its exponent lies outside (0, 1]. -/

open Complex in
/-- The impedance operation of each element kind at frequency f. -/
noncomputable def elemImpedance (k : ElemKind) (f : ℝ) (v : PVal ℝ) :
    Except String ℂ :=
  match k, v with
  | .resistor, .scalar R => .ok (R : ℂ)
  | .capacitor, .scalar Cv =>
    .ok (1 / (Complex.I * ((2 * Real.pi * f : ℝ) : ℂ) * (Cv : ℂ)))
  | .inductor, .scalar L =>
    .ok (Complex.I * ((2 * Real.pi * f : ℝ) : ℂ) * (L : ℂ))
  | .warburg, .scalar Aw =>
    .ok (((Aw / Real.sqrt (2 * Real.pi * f) : ℝ) : ℂ)
      + (Aw : ℂ) / (Complex.I * ((Real.sqrt (2 * Real.pi * f) : ℝ) : ℂ)))
  | .warburgShort, .tup [Aw, B] =>
    .ok ((Aw : ℂ)
      * Complex.tanh ((B : ℂ)
          * (Complex.I * ((2 * Real.pi * f : ℝ) : ℂ)) ^ ((1 : ℂ) / 2))
      / (Complex.I * ((2 * Real.pi * f : ℝ) : ℂ)) ^ ((1 : ℂ) / 2))
  | .warburgOpen, .tup [Aw, B] =>
    .ok ((Aw : ℂ)
      * (1 / Complex.tanh ((B : ℂ)
          * (Complex.I * ((2 * Real.pi * f : ℝ) : ℂ)) ^ ((1 : ℂ) / 2)))
      / (Complex.I * ((2 * Real.pi * f : ℝ) : ℂ)) ^ ((1 : ℂ) / 2))
  | .cpe, .tup [Cv, n] =>
    if n ≤ 0 ∨ 1 < n then
      .error "CPE exponent n must be in the range (0, 1]."
    else
      .ok (1 / ((Cv : ℂ)
        * (Complex.I * ((2 * Real.pi * f : ℝ) : ℂ)) ^ (n : ℂ)))
  | _, _ => .error "TypeError: wrong parameter shape for element"

mutual
/-- The recursive evaluator over the circuit tree: an element node looks
its key up in the params mapping (a missing key is a Python KeyError) and
dispatches to the element impedance; a series node sums the impedances of
its children; a parallel node sums the reciprocal impedances of its
children and reciprocates. -/
noncomputable def nodeImpedance (params : String → Option (PVal ℝ)) (f : ℝ) :
    CNode → Except String ℂ
  | .element e =>
    match params e.key with
    | none => .error ("KeyError: " ++ e.key)
    | some v => elemImpedance e.kind f v
  | .series cs => do
    let zs ← impList params f cs
    pure zs.sum
  | .parallel cs => do
    let zs ← impList params f cs
    pure (1 / (zs.map (fun z => 1 / z)).sum)

/-- Evaluate the children of a node in order, propagating the first
error, as the generator inside the Python sum call does. -/
noncomputable def impList (params : String → Option (PVal ℝ)) (f : ℝ) :
    List CNode → Except String (List ℂ)
  | [] => .ok []
  | c :: rest => do
    let z ← nodeImpedance params f c
    let zs ← impList params f rest
    pure (z :: zs)
end

/-! ## Claim theorems -/

/-- Claim C1: parsing R1-C1|R2, where dash and pipe occur at the same
parenthesis depth, splits on the top-level dash first: the result is a
series node of two children, the element R1 and a parallel node whose
children are the elements C1 and R2. In general, any parenthesis-free
trimmed string containing a dash is split on the dash first into a
series node, with each part (where any pipe is then handled) parsed
recursively. -/
theorem parse_series_binds_first :
    (parseCircuit "R1-C1|R2" =
      .ok (.series [.element ⟨.resistor, "1"⟩,
        .parallel [.element ⟨.capacitor, "1"⟩, .element ⟨.resistor, "2"⟩]]))
    ∧ ∀ s : String, s.data.contains '(' = false → s.data.contains '-' = true →
        stripChars s.data = s.data →
        parseCircuit s = (do
          let children ← (splitByOperator s.data '-').mapM (parseGo s.length)
          pure (CNode.series children)) := by
  refine ⟨rfl, ?_⟩
  intro s h1 h2 h3
  simp only [parseCircuit, parseGo, h3, h1, h2]
  rfl

/-- Witness for the general part of claim C1 at the documented input. -/
theorem parse_series_binds_first_witness :
    parseCircuit "R1-C1|R2" = (do
      let children ← (splitByOperator "R1-C1|R2".data '-').mapM
          (parseGo "R1-C1|R2".length)
      pure (CNode.series children)) :=
  parse_series_binds_first.2 "R1-C1|R2" rfl rfl rfl

/-- Claim C2, code evaluated at the failing inputs: the parser rejects the
tags S (WarburgShort) and O (WarburgOpen) with the unknown-element error,
although elements.py defines elements with exactly those tags; the five
tags R, C, L, W, Q are the only ones accepted. -/
theorem parse_rejects_warburg_short_open :
    parseCircuit "S1" = .error "Unknown element type: S"
    ∧ parseCircuit "O1" = .error "Unknown element type: O"
    ∧ ElemKind.warburgShort.tag = 'S'
    ∧ ElemKind.warburgOpen.tag = 'O'
    ∧ parseCircuit "R1" = .ok (.element ⟨.resistor, "1"⟩)
    ∧ parseCircuit "C1" = .ok (.element ⟨.capacitor, "1"⟩)
    ∧ parseCircuit "L1" = .ok (.element ⟨.inductor, "1"⟩)
    ∧ parseCircuit "W1" = .ok (.element ⟨.warburg, "1"⟩)
    ∧ parseCircuit "Q1" = .ok (.element ⟨.cpe, "1"⟩) :=
  ⟨rfl, rfl, rfl, rfl, rfl, rfl, rfl, rfl, rfl⟩

/-- The shape rule is the identity on mappings with no 1-tuple values. -/
lemma map_reconShape_eq_self (p : List (String × PVal ℚ))
    (hno : ∀ kv ∈ p, notOneTup kv.2 = true) :
    p.map (fun kv => (kv.1, reconShape kv.2)) = p := by
  induction p with
  | nil => rfl
  | cons kv rest ih =>
    have hkv := hno kv (List.mem_cons_self _ _)
    have hrest := ih (fun kv hm => hno kv (List.mem_cons_of_mem _ hm))
    have hsh : reconShape kv.2 = kv.2 := by
      cases h2 : kv.2 with
      | scalar x => rfl
      | tup xs =>
        rw [h2] at hkv
        simp only [notOneTup, Bool.not_eq_true', beq_eq_false_iff_ne] at hkv
        simp [reconShape, hkv]
    simp [hrest, hsh]

/-- Claim C3: flattening a parameter mapping into the ordered vector used
by fit and reconstructing before any optimisation yields the same keys
and numeric values, with the shape fixed by arity: scalar for arity 1,
tuple of the same length for arity above 1. In particular the round trip
is the identity on mappings whose tuple values are not 1-tuples. The
mapping is the canonical association list of the dict, so its keys are
strictly sorted. -/
theorem fit_roundtrip (eps : ℚ) (p : List (String × PVal ℚ))
    (hs : p.Pairwise (fun a b => keyLt a.1 b.1 = true)) :
    fitReconstruct (fitPrep eps p).structMap (fitPrep eps p).p0
        = p.map (fun kv => (kv.1, reconShape kv.2))
    ∧ ((∀ kv ∈ p, notOneTup kv.2 = true) →
        fitReconstruct (fitPrep eps p).structMap (fitPrep eps p).p0 = p) := by
  have hsort : sortEntries p = p := sortEntries_eq_self p hs
  have h1 : fitReconstruct (fitPrep eps p).structMap (fitPrep eps p).p0
      = p.map (fun kv => (kv.1, reconShape kv.2)) := by
    unfold fitPrep
    rw [hsort]
    exact fitPrepCore_roundtrip eps p
  exact ⟨h1, fun hno => by rw [h1, map_reconShape_eq_self p hno]⟩

/-- A concrete parameter mapping with a scalar, a CPE pair and a scalar. -/
def wParams : List (String × PVal ℚ) :=
  [("C1", .scalar (1 / 1000000)), ("Q1", .tup [2, 1 / 2]), ("R1", .scalar 1000)]

/-- Witness for claim C3 at a concrete mapping. -/
theorem fit_roundtrip_witness :
    fitReconstruct (fitPrep 1 wParams).structMap (fitPrep 1 wParams).p0
      = wParams :=
  (fit_roundtrip 1 wParams (by decide)).2 (by decide)

/-- Claim C4: fit iterates the keys in ascending lexicographic order, and
the bound vectors are, per key: eps and infinity for a scalar slot; eps
paired with infinity on the first slot and eps paired with 1.0 on the
second slot of a Q-tagged tuple; eps and infinity on every slot of any
other tuple. When Q-tagged tuples are pairs, as documented, the bound
vectors align with the flat initial-guess vector slot for slot. -/
theorem fit_bounds (eps : ℚ) (p : List (String × PVal ℚ))
    (hQ : ∀ kv ∈ p, cpeArityOk kv = true) :
    ((sortEntries p).map Prod.fst).Pairwise (fun a b => keyLe a b = true)
    ∧ (fitPrep eps p).lower = ((sortEntries p).map (lowerSpec eps)).flatten
    ∧ (fitPrep eps p).upper = ((sortEntries p).map upperSpec).flatten
    ∧ (fitPrep eps p).lower.length = (fitPrep eps p).p0.length
    ∧ (fitPrep eps p).upper.length = (fitPrep eps p).p0.length := by
  have hQs : ∀ kv ∈ sortEntries p, cpeArityOk kv = true :=
    fun kv hkv => hQ kv ((mem_sortEntries kv p).1 hkv)
  exact ⟨List.pairwise_map.2 (sortEntries_pairwise p),
    fitPrepCore_lower eps (sortEntries p),
    fitPrepCore_upper eps (sortEntries p),
    (fitPrepCore_lengths eps (sortEntries p) hQs).1,
    (fitPrepCore_lengths eps (sortEntries p) hQs).2⟩

/-- Witness for claim C4 at a concrete mapping. -/
theorem fit_bounds_witness :
    ((sortEntries wParams).map Prod.fst).Pairwise (fun a b => keyLe a b = true)
    ∧ (fitPrep 1 wParams).lower
        = ((sortEntries wParams).map (lowerSpec 1)).flatten
    ∧ (fitPrep 1 wParams).upper = ((sortEntries wParams).map upperSpec).flatten
    ∧ (fitPrep 1 wParams).lower.length = (fitPrep 1 wParams).p0.length
    ∧ (fitPrep 1 wParams).upper.length = (fitPrep 1 wParams).p0.length :=
  fit_bounds 1 wParams (by decide)

/-- Claim C5: the CPE impedance fails with the domain error exactly when
the exponent n satisfies n below or equal 0, or n above 1; for n in
(0, 1] it returns 1 / (C times (j 2 pi f) to the n). -/
theorem cpe_domain (f Cv n : ℝ) :
    ((∃ msg, elemImpedance .cpe f (.tup [Cv, n]) = .error msg)
        ↔ n ≤ 0 ∨ 1 < n)
    ∧ (0 < n → n ≤ 1 →
        elemImpedance .cpe f (.tup [Cv, n])
          = .ok (1 / ((Cv : ℂ)
              * (Complex.I * ((2 * Real.pi * f : ℝ) : ℂ)) ^ (n : ℂ)))) := by
  constructor
  · constructor
    · rintro ⟨msg, hmsg⟩
      by_contra hcon
      rw [elemImpedance, if_neg hcon] at hmsg
      exact Except.noConfusion hmsg
    · intro h
      exact ⟨_, by rw [elemImpedance, if_pos h]⟩
  · intro h1 h2
    have hcon : ¬(n ≤ 0 ∨ 1 < n) := by
      push_neg
      exact ⟨h1, h2⟩
    rw [elemImpedance, if_neg hcon]

/-- Witness for claim C5 at frequency 1, magnitude 1 and exponent 1/2. -/
theorem cpe_domain_witness :
    elemImpedance .cpe 1 (.tup [(1 : ℝ), (1 / 2 : ℝ)])
      = .ok (1 / (((1 : ℝ) : ℂ)
          * (Complex.I * ((2 * Real.pi * (1 : ℝ) : ℝ) : ℂ)) ^ (((1 / 2 : ℝ)) : ℂ))) :=
  (cpe_domain 1 1 (1 / 2)).2 (by norm_num) (by norm_num)

/-- Claim C6: best_model is a total function on its candidates (every
per-candidate failure is caught, recorded with its message in order, and
never escapes), and the returned winner and parameters are the first-seen
success of maximal r squared: a later success replaces the current winner
only when its score is strictly greater, so ties keep the first-seen
candidate. -/
theorem best_model_selects_first_max (ev : FitOracle) (models : List Candidate) :
    (bestModel ev models).failed = failuresOf ev models
    ∧ (bestModel ev models).winner
        = (firstMax (successesOf ev models)).map (fun c => (c.1, c.2.1))
    ∧ (bestModel ev models).params
        = (firstMax (successesOf ev models)).map (fun c => c.2.2)
    ∧ ((bestModel ev models).winner = none ↔ successesOf ev models = [])
    ∧ (∀ m r, (bestModel ev models).winner = some (m, r) →
        (∀ d ∈ successesOf ev models, d.2.1 ≤ r)
        ∧ ∃ l1 fp l2, successesOf ev models = l1 ++ (m, r, fp) :: l2
            ∧ ∀ d ∈ l1, d.2.1 < r) := by
  have h := bestModelGo_spec ev models ⟨none, none, none, []⟩
  have hw : (bestModel ev models).winner
      = (firstMax (successesOf ev models)).map (fun c => (c.1, c.2.1)) := by
    simp only [bestModel, h]
    cases hfm : firstMax (successesOf ev models) with
    | none => simp
    | some c => simp [beats]
  refine ⟨?_, hw, ?_, ?_, ?_⟩
  · simp only [bestModel, h]
    cases hfm : firstMax (successesOf ev models) with
    | none => simp
    | some c => simp [beats]
  · simp only [bestModel, h]
    cases hfm : firstMax (successesOf ev models) with
    | none => simp
    | some c => simp [beats]
  · rw [hw]
    cases hfm : firstMax (successesOf ev models) with
    | none =>
      simp [(firstMax_eq_none_iff (successesOf ev models)).1 hfm]
    | some c =>
      simp only [Option.map_some']
      constructor
      · intro hc
        exact Option.noConfusion hc
      · intro hc
        rw [hc] at hfm
        simp [firstMax] at hfm
  · intro m r hmr
    rw [hw] at hmr
    cases hfm : firstMax (successesOf ev models) with
    | none => rw [hfm] at hmr; exact Option.noConfusion hmr
    | some c =>
      rw [hfm] at hmr
      obtain ⟨c1, c2, c3⟩ := c
      simp only [Option.map_some', Option.some.injEq, Prod.mk.injEq] at hmr
      obtain ⟨rfl, rfl⟩ := hmr
      constructor
      · exact firstMax_le (successesOf ev models) _ hfm
      · obtain ⟨l1, l2, hl, hlt⟩ :=
          firstMax_first_seen (successesOf ev models) _ hfm
        exact ⟨l1, c3, l2, hl, hlt⟩

/-- Claim C7: a parallel node of two resistor elements bound to the same
parameter value R evaluates to exactly R / 2 at every positive frequency. -/
theorem parallel_equal_resistors (params : String → Option (PVal ℝ)) (f R : ℝ)
    (hf : 0 < f)
    (h1 : params "R1" = some (.scalar R)) (h2 : params "R2" = some (.scalar R)) :
    nodeImpedance params f
        (.parallel [.element ⟨.resistor, "1"⟩, .element ⟨.resistor, "2"⟩])
      = .ok ((R : ℂ) / 2) := by
  have hk1 : (Elem.mk .resistor "1").key = "R1" := rfl
  have hk2 : (Elem.mk .resistor "2").key = "R2" := rfl
  have he1 : nodeImpedance params f (.element ⟨.resistor, "1"⟩) = .ok (R : ℂ) := by
    simp only [nodeImpedance, hk1, h1]
    rfl
  have he2 : nodeImpedance params f (.element ⟨.resistor, "2"⟩) = .ok (R : ℂ) := by
    simp only [nodeImpedance, hk2, h2]
    rfl
  have hl : impList params f
      [.element ⟨.resistor, "1"⟩, .element ⟨.resistor, "2"⟩]
        = .ok [(R : ℂ), (R : ℂ)] := by
    rw [impList, he1]
    show impList params f [.element ⟨.resistor, "2"⟩] >>= _ = _
    rw [impList, he2]
    rfl
  rw [nodeImpedance, hl]
  show Except.ok (1 / (List.map (fun z => 1 / z) [(R : ℂ), (R : ℂ)]).sum)
      = Except.ok ((R : ℂ) / 2)
  simp only [List.map_cons, List.map_nil, List.sum_cons, List.sum_nil]
  by_cases hR : (R : ℂ) = 0
  · simp [hR]
  · congr 1
    rw [add_zero, eq_div_iff (by norm_num : (2 : ℂ) ≠ 0)]
    field_simp
    norm_num

/-- A concrete parameter mapping binding R1 and R2 to the value 5. -/
noncomputable def wParamsR : String → Option (PVal ℝ) := fun k =>
  if k = "R1" ∨ k = "R2" then some (.scalar 5) else none

/-- Witness for claim C7 at frequency 1 and resistance 5. -/
theorem parallel_equal_resistors_witness :
    nodeImpedance wParamsR 1
        (.parallel [.element ⟨.resistor, "1"⟩, .element ⟨.resistor, "2"⟩])
      = .ok (((5 : ℝ) : ℂ) / 2) :=
  parallel_equal_resistors wParamsR 1 5 (by norm_num) rfl rfl

/-- Claim C8: after the final update of fit, the mapping holds exactly
the keys it held before, and each value has its previous shape: a scalar
where a scalar stood, an equal-length tuple where a tuple stood. The
mapping is the canonical association list of the dict (strictly sorted
keys), its tuple values are not 1-tuples, and the optimiser output has
the length of the flattened initial guess. -/
theorem fit_update_preserves_structure (eps : ℚ) (p : List (String × PVal ℚ))
    (popt : List ℚ)
    (hs : p.Pairwise (fun a b => keyLt a.1 b.1 = true))
    (h1 : ∀ kv ∈ p, notOneTup kv.2 = true)
    (hlen : popt.length = (fitPrep eps p).p0.length) :
    (fitUpdate eps p popt).map Prod.fst = p.map Prod.fst
    ∧ List.Forall₂ (fun a b : String × PVal ℚ => sameShape a.2 b.2 = true) p
        (fitUpdate eps p popt) := by
  have hsort : sortEntries p = p := sortEntries_eq_self p hs
  unfold fitUpdate fitPrep
  unfold fitPrep at hlen
  rw [hsort] at hlen ⊢
  exact fitReconstruct_core_shape eps p popt h1 hlen

/-- Witness for claim C8 at a concrete mapping and optimiser output. -/
theorem fit_update_witness :
    (fitUpdate 1 wParams [7, 8, 9, 10]).map Prod.fst = wParams.map Prod.fst
    ∧ List.Forall₂ (fun a b : String × PVal ℚ => sameShape a.2 b.2 = true)
        wParams (fitUpdate 1 wParams [7, 8, 9, 10]) :=
  fit_update_preserves_structure 1 wParams [7, 8, 9, 10]
    (by decide) (by decide) (by decide)

/-- Claim C9 counterexample: a trailing series operator does not produce
an empty element token, so parsing R1- succeeds (as a series node with a
single child) instead of failing as the claim states. -/
theorem trailing_dash_parses :
    parseCircuit "R1-" = .ok (.series [.element ⟨.resistor, "1"⟩]) := rfl

/-- Claim C9 amended: parsing the empty string fails (the string index
error of reading the tag of the empty token), and so does any string
whose split produces an empty leading or inner part, such as -R1; but an
empty trailing part is dropped by the splitter, so R1- parses as a series
node with a single child. -/
theorem empty_token_fails :
    parseCircuit "" = .error "string index out of range"
    ∧ parseCircuit "-R1" = .error "string index out of range"
    ∧ parseCircuit "R1--C1" = .error "string index out of range"
    ∧ parseCircuit "R1-" = .ok (.series [.element ⟨.resistor, "1"⟩]) :=
  ⟨rfl, rfl, rfl, rfl⟩

/-- Claim C10: on an empty candidate list best_model returns none for
both the winner and the parameters, records no individual failure, and
still raises the all-models-failed warning, whose aggregated failure
list is empty. -/
theorem best_model_empty (ev : FitOracle) :
    bestModel ev [] = ⟨none, none, [], some []⟩ := rfl

end Eisy
